import Mathlib

/-!
Verification development for the Dr-Scheduler constraint-programming
scheduling engine.  Dates are modelled as integers counting days, with day 0
falling on a Monday, so that `weekday d = d % 7` matches Python
`date.weekday()` (Monday = 0, ..., Sunday = 6).  Week keys and call-period
deduplication keys, ISO date strings in the source, are represented by the
day number itself (the ISO rendering of a date is injective).
-/

namespace DrScheduler

/-- Python `date.weekday()`: Monday = 0 through Sunday = 6.  With dates as
day numbers anchored on a Monday this is the Euclidean remainder mod 7. -/
def weekday (d : Int) : Int := d % 7

/-- All days from `s` to `e` inclusive, in order (the `while current <= end`
loops in `calendar.py` enumerate exactly these days). -/
def dateRange (s e : Int) : List Int :=
  (List.range (e + 1 - s).toNat).map (fun i => s + (i : Int))

/-- Embeds `models/calendar.py` `Calendar`: start date, end date (inclusive)
and the holiday list (the `region` string only selects which holidays are
loaded and is irrelevant once `holidays` is fixed). -/
structure Calendar where
  startDate : Int
  endDate : Int
  holidays : List Int
deriving Repr, DecidableEq

/-- `Calendar.get_working_days`: weekdays within the horizon that are not
holidays. -/
def Calendar.workingDays (c : Calendar) : List Int :=
  (dateRange c.startDate c.endDate).filter
    (fun d => decide (weekday d < 5) && !(c.holidays.contains d))

/-- `Calendar.get_weekend_days`: Saturdays and Sundays within the horizon. -/
def Calendar.weekendDays (c : Calendar) : List Int :=
  (dateRange c.startDate c.endDate).filter (fun d => decide (5 ≤ weekday d))

/-- Insertion of a day into an ascending list, for `sorted(...)`. -/
def insertSorted (a : Int) : List Int → List Int
  | [] => [a]
  | b :: bs => if a ≤ b then a :: b :: bs else b :: insertSorted a bs

/-- Ascending insertion sort, the behaviour of Python `sorted` on a list of
days (on distinct elements every comparison sort agrees). -/
def sortInts : List Int → List Int
  | [] => []
  | a :: as => insertSorted a (sortInts as)

/-- `Calendar.get_call_days`: `sorted(set(weekend_days) | set(holidays))`,
the sorted duplicate-free union of weekend days and holidays. -/
def Calendar.callDays (c : Calendar) : List Int :=
  sortInts ((c.weekendDays ++ c.holidays).dedup)

/-- Period type tag of `determine_periods` entries (`'MAIN'` / `'CALL'`). -/
inductive PType
  | MAIN
  | CALL
deriving Repr, DecidableEq

/-- Days field of a stored period.  `_add_single_call_period` stores the
Python list object it receives: for a short run this is the live
`call_period` object, which later iterations of the week loop keep appending
to (`previous_call_period = call_period` aliases it), so such a stored period
is a reference (`ref`) into a heap of list objects; the two slices of a
midpoint split and the MAIN runs are fresh lists never mutated again
(`direct`). -/
inductive PDays
  | direct (ds : List Int)
  | ref (r : Nat)
deriving Repr, DecidableEq

/-- State threaded through `determine_periods`: the heap of `call_period`
list objects (`cur` is the index of the live one), the `periods` mapping in
key-insertion order, and the `added_call_periods` set of first days. -/
structure SegState where
  heap : List (List Int)
  cur : Nat
  periods : List (Int × List (PType × PDays))
  added : List Int
deriving Repr

/-- Reads a heap cell (a Python list object's current contents). -/
def heapGet (h : List (List Int)) (r : Nat) : List Int := h.getD r []

/-- Overwrites a heap cell (in-place mutation of a Python list object). -/
def heapSet (h : List (List Int)) (r : Nat) (v : List Int) : List (List Int) :=
  h.set r v

/-- Appends one period under a week key: `periods[week_start].append(p)` on
a `defaultdict(list)`, so a fresh key goes to the end of the key order. -/
def appendPeriod (ps : List (Int × List (PType × PDays))) (k : Int)
    (p : PType × PDays) : List (Int × List (PType × PDays)) :=
  match ps with
  | [] => [(k, [p])]
  | (k', l) :: rest =>
    if k' = k then (k', l ++ [p]) :: rest else (k', l) :: appendPeriod rest k p

/-- `Calendar._add_single_call_period`: store the call period under the week
key unless a period with the same first day was already added. -/
def addSingleCallPeriod (st : SegState) (weekStart : Int) (cp : List Int)
    (pd : PDays) : SegState :=
  match cp with
  | [] => st
  | d0 :: _ =>
    if st.added.contains d0 then st
    else { st with
            periods := appendPeriod st.periods weekStart (PType.CALL, pd)
            added := st.added ++ [d0] }

/-- `Calendar._add_call_periods`: adjust the week key when the run starts on
a weekday, then store the run, split at the midpoint when its length is at
least 4.  The two split halves are fresh slices; an unsplit run stores the
live list object itself. -/
def addCallPeriods (st : SegState) (weekStart : Int) : SegState :=
  let cp := heapGet st.heap st.cur
  let ws := match cp with
    | d0 :: _ => if weekday d0 < 5 then d0 - weekday d0 else weekStart
    | [] => weekStart
  if 4 ≤ cp.length then
    let mid := cp.length / 2
    let st1 := addSingleCallPeriod st ws (cp.take mid) (PDays.direct (cp.take mid))
    addSingleCallPeriod st1 ws (cp.drop mid) (PDays.direct (cp.drop mid))
  else
    addSingleCallPeriod st ws cp (PDays.ref st.cur)

/-- One iteration of the `while` loop of `determine_periods` for the week
starting at `weekStart`: flush MAIN runs of consecutive working days, then
extend/flush the CALL run, carrying a run that is still open on Sunday into
the next week (the carried list object stays live: Python aliasing). -/
def weekStep (cal : Calendar) (st0 : SegState) (weekStart : Int) : SegState :=
  let weekDays :=
    ((List.range 7).map (fun i => weekStart + (i : Int))).filter
      (fun d => decide (d ≤ cal.endDate))
  -- MAIN periods: maximal runs of consecutive working days within the week
  let mainAcc := weekDays.foldl (fun acc d =>
      match acc with
      | (st, mrun) =>
        if cal.workingDays.contains d then (st, mrun ++ [d])
        else if mrun.isEmpty then (st, mrun)
        else ({ st with
                 periods := appendPeriod st.periods weekStart
                   (PType.MAIN, PDays.direct mrun) }, []))
    (st0, ([] : List Int))
  let st1 :=
    match mainAcc with
    | (st, mrun) =>
      if mrun.isEmpty then st
      else { st with
              periods := appendPeriod st.periods weekStart
                (PType.MAIN, PDays.direct mrun) }
  -- CALL periods: extend the live run on call days, flush on other days
  let st2 := weekDays.foldl (fun st d =>
      if cal.callDays.contains d then
        { st with heap := heapSet st.heap st.cur (heapGet st.heap st.cur ++ [d]) }
      else if (heapGet st.heap st.cur).isEmpty then st
      else
        let st' := addCallPeriods st weekStart
        -- `call_period = []` rebinds to a fresh list object
        { st' with heap := st'.heap ++ [[]], cur := st'.heap.length })
    st1
  -- end of week: flush a run that is still open and carry the live object
  if (heapGet st2.heap st2.cur).isEmpty then
    -- `previous_call_period = []`: a fresh empty object for the next week
    { st2 with heap := st2.heap ++ [[]], cur := st2.heap.length }
  else
    addCallPeriods st2 weekStart

/-- Week-start Mondays visited by the `while current_date <= end_date` loop:
the first iteration runs from `start_date`'s Monday, every later iteration
from the following Mondays, while the loop condition holds. -/
def weekStarts (cal : Calendar) : List Int :=
  if cal.endDate < cal.startDate then []
  else
    let ws0 := cal.startDate - weekday cal.startDate
    (List.range ((cal.endDate - ws0) / 7 + 1).toNat).map
      (fun i => ws0 + 7 * (i : Int))

/-- Initial segmenter state: `previous_call_period = []` is one live empty
list object. -/
def initSegState : SegState :=
  { heap := [[]], cur := 0, periods := [], added := [] }

/-- `Calendar.determine_periods`, before resolving list-object references. -/
def determinePeriodsRaw (cal : Calendar) : SegState :=
  (weekStarts cal).foldl (weekStep cal) initSegState

/-- `Calendar.determine_periods`: the final period mapping, with each stored
list object resolved to its final contents (a period stored before a
week boundary shows the days appended to the same object afterwards). -/
def determinePeriods (cal : Calendar) : List (Int × List (PType × List Int)) :=
  let st := determinePeriodsRaw cal
  st.periods.map (fun e =>
    (e.1, e.2.map (fun p =>
      (p.1, match p.2 with
            | PDays.direct ds => ds
            | PDays.ref r => heapGet st.heap r))))

/-! Availability oracle and physician manager (`config/managers.py`). -/

/-- An unavailability entry of `PhysicianManager.unavailability_periods`:
either a single date or a closed date range `(start, end)`. -/
inductive UEntry
  | single (d : Int)
  | closedRange (a b : Int)
deriving Repr, DecidableEq

/-- Whether an unavailability entry contains a day, as tested inside
`is_unavailable`: equality for a single date, `start <= d <= end` for a
range. -/
def UEntry.containsDay : UEntry → Int → Bool
  | UEntry.single d, c => c = d
  | UEntry.closedRange a b, c => decide (a ≤ c) && decide (c ≤ b)

/-- The `unavailability_periods` mapping, physician full name to entries. -/
abbrev UnavailMap := List (String × List UEntry)

/-- `PhysicianManager.is_unavailable`: `False` when the name has no entry in
the mapping, otherwise `True` iff some recorded entry contains the day. -/
def isUnavailable (m : UnavailMap) (name : String) (checkDate : Int) : Bool :=
  match m.lookup name with
  | none => false
  | some entries => entries.any (fun e => e.containsDay checkDate)

/-- Embeds `models/physician.py` `Physician`.  (`name` is derived as
`first_name ++ " " ++ last_name`; the constructor-time check that
`desired_working_weeks` lies in `{0, 0.25, 0.5, 0.75, 1}` happens before a
physician object exists and is orthogonal to the manager's behaviour.) -/
structure Physician where
  firstName : String
  lastName : String
  initials : String
  preferredTasks : List String
  discontinuityPreference : Bool
  desiredWorkingWeeks : Rat
  restrictedTasks : List String
  exclusionTasks : List String
deriving Repr, DecidableEq

/-- `PhysicianManager._validate_physician` (reduced to its success
condition): preferred, restricted and exclusion task names must be known
category names and `0 < desired_working_weeks <= 1`. -/
def validatePhysician (categories : List String) (p : Physician) : Bool :=
  p.preferredTasks.all (fun t => categories.contains t) &&
  p.restrictedTasks.all (fun t => categories.contains t) &&
  p.exclusionTasks.all (fun t => categories.contains t) &&
  (decide (0 < p.desiredWorkingWeeks) && decide (p.desiredWorkingWeeks ≤ 1))

/-- First letter of the given name followed by first letter of the family
name (`f"{first[0]}{last[0]}"`). -/
def plainInitials (p : Physician) : String :=
  p.firstName.take 1 ++ p.lastName.take 1

/-- `PhysicianManager._set_initials`: assign the plain initials; when an
already-added physician has the same initials, fall back to
`f"{first[0]}{first[1]}{last[0]}"` — the first two letters of the given name
and the first letter of the family name — without any further uniqueness
check.  (Names are assumed to have at least two characters, as Python
indexing would otherwise raise.) -/
def setInitials (existing : List Physician) (p : Physician) : Physician :=
  let ini := plainInitials p
  if existing.any (fun q => q.initials = ini) then
    { p with initials := p.firstName.take 2 ++ p.lastName.take 1 }
  else
    { p with initials := ini }

/-- `PhysicianManager.add_physician`: validate, set initials, append.  (The
empty unavailability list registered for the new physician does not affect
the physician list and is omitted here.) -/
def addPhysician (categories : List String) (st : List Physician)
    (p : Physician) : Except String (List Physician) :=
  if validatePhysician categories p then Except.ok (st ++ [setInitials st p])
  else Except.error "invalid physician"

/-- A sequence of `add_physician` calls starting from the given physician
list, failing as soon as one call fails. -/
def addPhysicians (categories : List String) :
    List Physician → List Physician → Except String (List Physician)
  | st, [] => Except.ok st
  | st, p :: ps =>
    match addPhysician categories st p with
    | Except.ok st' => addPhysicians categories st' ps
    | Except.error e => Except.error e

/-! Tasks (`models/task.py`) and the interval materializer, constraint
builder and solver driver (`models/math_schedule.py`). -/

/-- `TaskType` enum. -/
inductive TaskType
  | MAIN
  | CALL
deriving Repr, DecidableEq

/-- `TaskDaysParameter` enum. -/
inductive TaskDaysParameter
  | DISCONTINUOUS
  | CONTINUOUS
  | MULTI_WEEK
deriving Repr, DecidableEq

/-- Embeds `Task` with its category's relevant attributes flattened in
(`days_parameter` comes from the category; the constructor derives
`number_of_weeks = 1` for CALL tasks and the category's value otherwise). -/
structure Task where
  name : String
  ttype : TaskType
  daysParameter : TaskDaysParameter
  numberOfWeeks : Nat
  heaviness : Nat
  mandatory : Bool
deriving Repr, DecidableEq

/-- The `LinkageManager.links` mapping, main task name to call task name;
`get_linked_call` is association-list lookup. -/
abbrev Linkage := List (String × String)

/-- `_get_available_physicians`: physicians available on every day of the
list (no unavailability entry contains any of the days). -/
def getAvailablePhysicians (physNames : List String) (um : UnavailMap)
    (days : List Int) : List String :=
  physNames.filter (fun p => days.all (fun d => !(isUnavailable um p d)))

/-- Embeds the `MathTask` decision unit. -/
structure MathTask where
  name : String
  ttype : TaskType
  weekStart : Int
  days : List Int
  startDate : Int
  endDate : Int
  numberOfWeeks : Nat
  availablePhysicians : List String
  heaviness : Nat
  mandatory : Bool
deriving Repr, DecidableEq

/-- Key of a decision variable `y[(task_name, start_date, end_date,
physician)]`. -/
abbrev YKey := String × Int × Int × String

/-- `MathTask.y_var`: the variable key of this interval for a physician. -/
def MathTask.yKey (mt : MathTask) (p : String) : YKey :=
  (mt.name, mt.startDate, mt.endDate, p)

/-- Builds the `MathTask` that `_math_create_variables` constructs for one
period's day list (`start_date = days[0]`, `end_date = days[-1]`,
candidates from `_get_available_physicians`). -/
def mkMathTask (physNames : List String) (um : UnavailMap) (task : Task)
    (weekStart : Int) (ds : List Int) : MathTask :=
  { name := task.name
    ttype := task.ttype
    weekStart := weekStart
    days := ds
    startDate := ds.headD 0
    endDate := ds.getLastD 0
    numberOfWeeks := task.numberOfWeeks
    availablePhysicians := getAvailablePhysicians physNames um ds
    heaviness := task.heaviness
    mandatory := task.mandatory }

/-- `_get_periods_days` restricted to one period type: the day lists of the
week's periods of that type, in stored order. -/
def periodsDaysOf (wps : List (PType × List Int)) (t : PType) : List (List Int) :=
  (wps.filter (fun p => p.1 = t)).map (fun p => p.2)

/-- One week of `_math_create_variables` for one task: MAIN tasks take the
week's MAIN periods, CALL tasks its CALL periods; a DISCONTINUOUS days
parameter raises `NotImplementedError`. -/
def buildWeekMathTasks (physNames : List String) (um : UnavailMap) (task : Task)
    (weekStart : Int) (mains calls : List (List Int)) :
    Except String (List MathTask) :=
  match task.daysParameter with
  | TaskDaysParameter.DISCONTINUOUS =>
    Except.error "days parameter DISCONTINUOUS not yet implemented"
  | _ =>
    match task.ttype with
    | TaskType.MAIN =>
      Except.ok (mains.map (fun ds => mkMathTask physNames um task weekStart ds))
    | TaskType.CALL =>
      Except.ok (calls.map (fun ds => mkMathTask physNames um task weekStart ds))

/-- `self.math_tasks[task.name]`: per week key (in period-mapping order) the
week's `MathTask` list for one task. -/
def mathTasksForTask (physNames : List String) (um : UnavailMap) (task : Task) :
    List (Int × List (PType × List Int)) →
    Except String (List (Int × List MathTask))
  | [] => Except.ok []
  | wp :: rest =>
    match buildWeekMathTasks physNames um task wp.1
        (periodsDaysOf wp.2 PType.MAIN) (periodsDaysOf wp.2 PType.CALL) with
    | Except.error e => Except.error e
    | Except.ok mts =>
      match mathTasksForTask physNames um task rest with
      | Except.error e => Except.error e
      | Except.ok more => Except.ok ((wp.1, mts) :: more)

/-- The complete `self.math_tasks` table built by `_math_create_variables`
(task-major; the source fills the same per-task, per-week lists iterating
weeks on the outside, which yields the same table). -/
def mathTasksAll (physNames : List String) (um : UnavailMap)
    (periods : List (Int × List (PType × List Int))) :
    List Task → Except String (List (String × List (Int × List MathTask)))
  | [] => Except.ok []
  | t :: ts =>
    match mathTasksForTask physNames um t periods with
    | Except.error e => Except.error e
    | Except.ok tw =>
      match mathTasksAll physNames um periods ts with
      | Except.error e => Except.error e
      | Except.ok more => Except.ok ((t.name, tw) :: more)

/-- Looks up a task's per-week `MathTask` lists in the table. -/
def mtOf (mathTasks : List (String × List (Int × List MathTask)))
    (name : String) : List (Int × List MathTask) :=
  (mathTasks.lookup name).getD []

/-- `_get_all_math_tasks_per_task` for one task: the per-week lists
concatenated in week-key order. -/
def flatMtOf (mathTasks : List (String × List (Int × List MathTask)))
    (name : String) : List MathTask :=
  (mtOf mathTasks name).flatMap (fun wk => wk.2)

/-- Constraints emitted into the CP model; all linear over boolean
`y`-variables. -/
inductive Constr
  | eqZero (k : YKey)
  | eqVars (k1 k2 : YKey)
  | sumLe (ks : List YKey) (bound : Nat)
  | atLeastOne (ks : List YKey)
  | leSum (k : YKey) (ks : List YKey)
  | pairLe (k1 k2 : YKey)
deriving Repr, DecidableEq

/-- Value of a boolean variable as an integer term. -/
def boolVal (b : Bool) : Nat := if b then 1 else 0

/-- Sum of the values of a list of variables. -/
def sumVals (v : YKey → Bool) (ks : List YKey) : Nat :=
  (ks.map (fun k => boolVal (v k))).sum

/-- Whether a valuation satisfies one constraint. -/
def Constr.sat (v : YKey → Bool) : Constr → Bool
  | Constr.eqZero k => v k = false
  | Constr.eqVars k1 k2 => v k1 = v k2
  | Constr.sumLe ks bound => decide (sumVals v ks ≤ bound)
  | Constr.atLeastOne ks => decide (1 ≤ sumVals v ks)
  | Constr.leSum k ks => decide (boolVal (v k) ≤ sumVals v ks)
  | Constr.pairLe k1 k2 => decide (boolVal (v k1) + boolVal (v k2) ≤ 1)

/-- Whether a valuation satisfies every constraint of a list. -/
def satAll (v : YKey → Bool) (cs : List Constr) : Bool :=
  cs.all (fun c => c.sat v)

/-- Variable keys mentioned by a constraint. -/
def Constr.keys : Constr → List YKey
  | Constr.eqZero k => [k]
  | Constr.eqVars k1 k2 => [k1, k2]
  | Constr.sumLe ks _ => ks
  | Constr.atLeastOne ks => ks
  | Constr.leSum k ks => k :: ks
  | Constr.pairLe k1 k2 => [k1, k2]

/-- `_math_create_physician_availability_constraints`: for every `MathTask`
and every physician not among its candidates, `y = 0`.  (Constraint order is
immaterial to the declarative model; the table is traversed task-major
here.) -/
def physicianAvailabilityConstraints (allPhys : List String)
    (mathTasks : List (String × List (Int × List MathTask))) : List Constr :=
  mathTasks.flatMap (fun tw => tw.2.flatMap (fun wk => wk.2.flatMap (fun mt =>
    (allPhys.filter (fun p => !(mt.availablePhysicians.contains p))).map
      (fun p => Constr.eqZero (mt.yKey p)))))

/-- `_math_create_mandatory_task_constraints`: for every `MathTask` of a
mandatory task, the candidates' variables sum to at least one. -/
def mandatoryTaskConstraints (tasks : List Task)
    (mathTasks : List (String × List (Int × List MathTask))) : List Constr :=
  tasks.flatMap (fun task =>
    if task.mandatory then
      (mtOf mathTasks task.name).flatMap (fun wk => wk.2.map (fun mt =>
        Constr.atLeastOne (mt.availablePhysicians.map (fun p => mt.yKey p))))
    else [])

/-- `create_math_tasks_bundle_constraints`: for every physician and every
adjacent pair in the bundle, the two variables are equal. -/
def createMathTasksBundleConstraints (M : List MathTask)
    (phys : List String) : List Constr :=
  phys.flatMap (fun p => (M.zip M.tail).map (fun mm =>
    Constr.eqVars (mm.1.yKey p) (mm.2.yKey p)))

/-- `limit_number_of_call_math_tasks` with its default bound of 1. -/
def limitNumberOfCallMathTasks (C : List MathTask)
    (phys : List String) : List Constr :=
  phys.map (fun p => Constr.sumLe (C.map (fun c => c.yKey p)) 1)

/-- `link_main_and_call_math_tasks`: veto every call interval starting no
later than the first main interval's end — the loop breaks at the first call
interval past that date, so only a prefix is vetoed — then Main implies Call
and Call implies Main.  (On an empty `M` the source raises `IndexError` at
`M[0]`; that case is unreachable for the engine's bundles.) -/
def linkMainAndCallMathTasks (M C : List MathTask)
    (phys : List String) : List Constr :=
  match M with
  | [] => []
  | m1 :: _ =>
    let veto := (C.takeWhile (fun c => decide (c.startDate ≤ m1.endDate))).flatMap
      (fun c => phys.map (fun p => Constr.eqZero (c.yKey p)))
    let mainImp := phys.flatMap (fun p => M.flatMap (fun m =>
      if 0 < C.length then
        [Constr.leSum (m.yKey p) (C.map (fun c => c.yKey p))]
      else []))
    let callImp := phys.flatMap (fun p => C.flatMap (fun c =>
      if 0 < M.length then
        [Constr.leSum (c.yKey p) (M.map (fun m => m.yKey p))]
      else []))
    veto ++ mainImp ++ callImp

/-- Constraints emitted when a bundle is flushed: bundle atomicity, and when
the task is linked, the call quota and the main/call linkage. -/
def bundleFlush (M C : List MathTask) (linked : Bool)
    (phys : List String) : List Constr :=
  createMathTasksBundleConstraints M phys ++
    (if linked then
      limitNumberOfCallMathTasks C phys ++ linkMainAndCallMathTasks M C phys
    else [])

/-- The week loop of `_math_create_call_linked_to_main_tasks_constraints`
for one MAIN task: extend the running bundle with the week's main (and
linked call) `MathTask`s, decrement the weeks-left counter, and on zero
flush the bundle and reset.  A bundle still open when the weeks run out — the
trailing partial bundle — is dropped: the loop ends without flushing it. -/
def bundleLoop (k : Nat) (linked : Bool) (phys : List String) :
    Nat → List MathTask → List MathTask →
    List (List MathTask × List MathTask) → List Constr
  | _, _, _, [] => []
  | left, bm, bc, w :: ws =>
    let bm' := bm ++ w.1
    let bc' := if linked then bc ++ w.2 else bc
    if left - 1 = 0 then
      bundleFlush bm' bc' linked phys ++ bundleLoop k linked phys k [] [] ws
    else
      bundleLoop k linked phys (left - 1) bm' bc' ws

/-- Per-week inputs of the bundling loop for one MAIN task: the week's
`MathTask`s of the task itself and of its linked call task (empty when the
task is unlinked). -/
def bundleWeeks (mathTasks : List (String × List (Int × List MathTask)))
    (linkage : Linkage) (task : Task) : List (List MathTask × List MathTask) :=
  (mtOf mathTasks task.name).map (fun wk =>
    (wk.2, match linkage.lookup task.name with
           | some cn => ((mtOf mathTasks cn).lookup wk.1).getD []
           | none => []))

/-- `_math_create_call_linked_to_main_tasks_constraints`: the bundling loop
over every MAIN task. -/
def callLinkedToMainConstraints (allPhys : List String) (tasks : List Task)
    (mathTasks : List (String × List (Int × List MathTask)))
    (linkage : Linkage) : List Constr :=
  tasks.flatMap (fun task =>
    if task.ttype = TaskType.MAIN then
      bundleLoop task.numberOfWeeks (linkage.lookup task.name).isSome allPhys
        task.numberOfWeeks [] [] (bundleWeeks mathTasks linkage task)
    else [])

/-- The two-pointer sweep of
`_create_mutually_exclusive_math_tasks_constraints`, with explicit fuel (the
source's `while i < len(A) and j < len(B)` runs at most `|A| + |B|`
iterations): when the two current intervals intersect, emit `y_A + y_B <= 1`
for every physician, then drop the interval with the smaller endpoint (ties
drop `B`'s). -/
def sweepAux (phys : List String) :
    Nat → List MathTask → List MathTask → List Constr
  | 0, _, _ => []
  | _, [], _ => []
  | _, _, [] => []
  | fuel + 1, a :: as, b :: bs =>
    let cs :=
      if max a.startDate b.startDate ≤ min a.endDate b.endDate then
        phys.map (fun p => Constr.pairLe (a.yKey p) (b.yKey p))
      else []
    cs ++ (if a.endDate < b.endDate then sweepAux phys fuel as (b :: bs)
           else sweepAux phys fuel (a :: as) bs)

/-- `_create_mutually_exclusive_math_tasks_constraints` on two ordered
`MathTask` lists. -/
def createMutuallyExclusiveMathTasksConstraints (phys : List String)
    (A B : List MathTask) : List Constr :=
  sweepAux phys (A.length + B.length) A B

/-- The ordered pairs `(i, j)` with `i < j` of `_math_create_non_simultaneous_tasks`. -/
def allTaskPairs : List Task → List (Task × Task)
  | [] => []
  | t :: ts => ts.map (fun u => (t, u)) ++ allTaskPairs ts

/-- `_math_create_non_simultaneous_tasks`: the sweep over every unordered
pair of distinct tasks' full `MathTask` sequences. -/
def nonSimultaneousConstraints (allPhys : List String) (tasks : List Task)
    (mathTasks : List (String × List (Int × List MathTask))) : List Constr :=
  (allTaskPairs tasks).flatMap (fun tt =>
    createMutuallyExclusiveMathTasksConstraints allPhys
      (flatMtOf mathTasks tt.1.name) (flatMtOf mathTasks tt.2.name))

/-- `_math_create_constraints`: all four families. -/
def createConstraints (allPhys : List String) (tasks : List Task)
    (mathTasks : List (String × List (Int × List MathTask)))
    (linkage : Linkage) : List Constr :=
  physicianAvailabilityConstraints allPhys mathTasks ++
  mandatoryTaskConstraints tasks mathTasks ++
  callLinkedToMainConstraints allPhys tasks mathTasks linkage ++
  nonSimultaneousConstraints allPhys tasks mathTasks

/-- One entry of the extracted schedule (`_add_to_schedule` keyed by the
physician): the task, the interval's day list, `start_date = days[0]`,
`end_date = days[-1]` and the (stubbed, zero) score. -/
structure SEntry where
  physician : String
  taskName : String
  days : List Int
  startDate : Int
  endDate : Int
  score : Int
deriving Repr, DecidableEq

/-- `_math_set_solution`: for every `MathTask` and every candidate physician
whose variable the solver set, record an assignment entry. -/
def mathSetSolution (mathTasks : List (String × List (Int × List MathTask)))
    (v : YKey → Bool) : List SEntry :=
  mathTasks.flatMap (fun tw => tw.2.flatMap (fun wk => wk.2.flatMap (fun mt =>
    (mt.availablePhysicians.filter (fun p => v (mt.yKey p))).map (fun p =>
      { physician := p
        taskName := mt.name
        days := mt.days
        startDate := mt.days.headD 0
        endDate := mt.days.getLastD 0
        score := 0 }))))

/-- CP-SAT termination statuses relevant to `generate_schedule`. -/
inductive CpStatus
  | OPTIMAL
  | FEASIBLE
  | INFEASIBLE
  | MODEL_INVALID
  | UNKNOWN
deriving Repr, DecidableEq

/-- The status handling at the end of `generate_schedule`: on `OPTIMAL` or
`FEASIBLE` the schedule is replaced by `_math_set_solution`'s extraction;
on any other status only a message is logged and the prior schedule map is
kept as is. -/
def generateScheduleUpdate (prior : List SEntry)
    (mathTasks : List (String × List (Int × List MathTask)))
    (status : CpStatus) (v : YKey → Bool) : List SEntry :=
  if status = CpStatus.OPTIMAL ∨ status = CpStatus.FEASIBLE then
    mathSetSolution mathTasks v
  else prior

/-! Schedule persistence (`save_schedule` / `_load_schedule_from_file`).
The embedding renders a date by the decimal string of its day number, an
injective stand-in for the ISO format that `json.dump(..., default=str)`
produces. -/

/-- The ISO date string of day `d`, represented by the day number it renders
(the rendering is a bijection between days and their ISO strings, so this
wrapper type is a faithful stand-in for the string). -/
structure IsoDate where
  rendered : Int
deriving Repr, DecidableEq

/-- Rendering of a date by `str` during `json.dump(..., default=str)`. -/
def isoOfDay (d : Int) : IsoDate := { rendered := d }

/-- `date.fromisoformat` on a rendered date. -/
def parseDay (s : IsoDate) : Int := s.rendered

/-- One serialized schedule entry as written by `save_schedule`: the task
object replaced by its name, every date rendered as a string. -/
structure SavedEntry where
  task : String
  days : List IsoDate
  startDate : IsoDate
  endDate : IsoDate
  score : Int
deriving Repr, DecidableEq

/-- `save_schedule` on one entry. -/
def saveEntry (e : SEntry) : SavedEntry :=
  { task := e.taskName
    days := e.days.map isoOfDay
    startDate := isoOfDay e.startDate
    endDate := isoOfDay e.endDate
    score := e.score }

/-- Modelled from the spec: `TaskManager.get_task`, called by
`_load_schedule_from_file`, is defined nowhere in the repository (its only
occurrences are the two call sites), so loading a non-empty schedule raises
`AttributeError`; per the spec's task-configuration document it can only be
the lookup of a task by name. -/
def specGetTask (tasks : List Task) (name : String) : Option Task :=
  tasks.find? (fun t => t.name = name)

/-- One loaded schedule entry as `_load_schedule_from_file` builds it:
`start_date` and `end_date` are parsed back to dates and `task` resolved
via `get_task`, but the `days` list is spread unchanged from the JSON
dictionary and stays a list of date strings. -/
structure LoadedEntry where
  task : Option Task
  days : List IsoDate
  startDate : Int
  endDate : Int
  score : Int
deriving Repr, DecidableEq

/-- `_load_schedule_from_file` on one serialized entry (with the modelled
`get_task`). -/
def loadEntry (tasks : List Task) (se : SavedEntry) : LoadedEntry :=
  { task := specGetTask tasks se.task
    days := se.days
    startDate := parseDay se.startDate
    endDate := parseDay se.endDate
    score := se.score }

/-! Concrete instances.  Day numbers: 0 is a Monday. -/

/-- Scenario S2's calendar: day 0 is Monday 2022-12-26, so the horizon is
4 = Friday 2022-12-30 through 8 = Tuesday 2023-01-03, with the single
holiday 7 = Monday 2023-01-02. -/
def calS2 : Calendar := { startDate := 4, endDate := 8, holidays := [7] }

/-- A week whose days are all call days: Monday through Friday (days 0-4)
are holidays, days 5-6 the weekend, giving one 7-day call run. -/
def calFullWeek : Calendar := { startDate := 0, endDate := 6, holidays := [0, 1, 2, 3, 4] }

/-- A calendar with a call run carried across the week boundary: horizon
Friday (4) through Wednesday (9) with the second week's Monday (7) and
Tuesday (8) holidays, so the call run 5, 6, 7, 8 opens on Saturday and is
flushed in the second week. -/
def calCarry : Calendar := { startDate := 4, endDate := 9, holidays := [7, 8] }

/-- A three-week holiday-free horizon, Monday 0 through Sunday 20. -/
def calThreeWeeks : Calendar := { startDate := 0, endDate := 20, holidays := [] }

/-- A two-week MAIN task (CTU_A). -/
def ctuA : Task :=
  { name := "CTU_A", ttype := TaskType.MAIN,
    daysParameter := TaskDaysParameter.MULTI_WEEK, numberOfWeeks := 2,
    heaviness := 0, mandatory := false }

/-- The call task linked to CTU_A. -/
def ctuACall : Task :=
  { name := "CTU_A_CALL", ttype := TaskType.CALL,
    daysParameter := TaskDaysParameter.MULTI_WEEK, numberOfWeeks := 1,
    heaviness := 0, mandatory := false }

/-- The linkage for the three-week instance. -/
def linkageA : Linkage := [("CTU_A", "CTU_A_CALL")]

/-- The `math_tasks` table of the three-week instance (single physician P,
nobody unavailable). -/
def mtThreeWeeks : List (String × List (Int × List MathTask)) :=
  match mathTasksAll ["P"] [] (determinePeriods calThreeWeeks) [ctuA, ctuACall] with
  | Except.ok a => a
  | Except.error _ => []

/-- The bundling constraints of the three-week instance. -/
def consThreeWeeks : List Constr :=
  callLinkedToMainConstraints ["P"] [ctuA, ctuACall] mtThreeWeeks linkageA

/-- First of two unlinked, non-mandatory call tasks on the carry calendar. -/
def callX : Task :=
  { name := "CALL_X", ttype := TaskType.CALL,
    daysParameter := TaskDaysParameter.CONTINUOUS, numberOfWeeks := 1,
    heaviness := 0, mandatory := false }

/-- Second of the two call tasks on the carry calendar. -/
def callY : Task :=
  { name := "CALL_Y", ttype := TaskType.CALL,
    daysParameter := TaskDaysParameter.CONTINUOUS, numberOfWeeks := 1,
    heaviness := 0, mandatory := false }

/-- The `math_tasks` table of the carry instance. -/
def mtCarry : List (String × List (Int × List MathTask)) :=
  match mathTasksAll ["P"] [] (determinePeriods calCarry) [callX, callY] with
  | Except.ok a => a
  | Except.error _ => []

/-- The full constraint set of the carry instance (no linkage). -/
def consCarry : List Constr :=
  createConstraints ["P"] [callX, callY] mtCarry []

/-- A valuation assigning physician P both call tasks on the overlapping
Monday-Tuesday intervals and nothing else. -/
def vCarry : YKey → Bool := fun k =>
  decide (k = ("CALL_X", 7, 8, "P")) || decide (k = ("CALL_Y", 7, 8, "P"))

/-- Physician Anna Bell (no task preferences, full working weeks). -/
def pAnna : Physician :=
  { firstName := "Anna", lastName := "Bell", initials := "",
    preferredTasks := [], discontinuityPreference := false,
    desiredWorkingWeeks := 1, restrictedTasks := [], exclusionTasks := [] }

/-- Physician Alma Burg. -/
def pAlma : Physician :=
  { firstName := "Alma", lastName := "Burg", initials := "",
    preferredTasks := [], discontinuityPreference := false,
    desiredWorkingWeeks := 1, restrictedTasks := [], exclusionTasks := [] }

/-- Physician Alan Black. -/
def pAlan : Physician :=
  { firstName := "Alan", lastName := "Black", initials := "",
    preferredTasks := [], discontinuityPreference := false,
    desiredWorkingWeeks := 1, restrictedTasks := [], exclusionTasks := [] }

/-- Physician Cora Dahl (distinct plain initials from Anna Bell's). -/
def pCora : Physician :=
  { firstName := "Cora", lastName := "Dahl", initials := "",
    preferredTasks := [], discontinuityPreference := false,
    desiredWorkingWeeks := 1, restrictedTasks := [], exclusionTasks := [] }

/-- A concrete solved-schedule entry: CTU_A for physician P on the weekend
days 5 and 6. -/
def eCTU : SEntry :=
  { physician := "P", taskName := "CTU_A", days := [5, 6],
    startDate := 5, endDate := 6, score := 0 }

/-- The per-week bundling inputs for CTU_A on the three-week instance. -/
def weeksCtuA : List (List MathTask × List MathTask) :=
  bundleWeeks mtThreeWeeks linkageA ctuA

/-- The physician list obtained by adding Anna Bell and Cora Dahl. -/
def resAnnaCora : List Physician :=
  (addPhysicians [] [] [pAnna, pCora]).toOption.getD []

/-- A week-one MAIN interval Monday through Friday for physician P. -/
def mtMainW1 : MathTask :=
  { name := "CTU_A", ttype := TaskType.MAIN, weekStart := 0,
    days := [0, 1, 2, 3, 4], startDate := 0, endDate := 4, numberOfWeeks := 2,
    availablePhysicians := ["P"], heaviness := 0, mandatory := false }

/-- A one-day linked CALL interval on the Thursday (day 3) of week one, so
it starts no later than the main interval's Friday end. -/
def mtCallW1 : MathTask :=
  { name := "CTU_A_CALL", ttype := TaskType.CALL, weekStart := 0,
    days := [3], startDate := 3, endDate := 3, numberOfWeeks := 1,
    availablePhysicians := ["P"], heaviness := 0, mandatory := false }

/-- A mandatory one-week MAIN task. -/
def er1 : Task :=
  { name := "ER_1", ttype := TaskType.MAIN,
    daysParameter := TaskDaysParameter.CONTINUOUS, numberOfWeeks := 1,
    heaviness := 0, mandatory := true }

/-- Physician P unavailable on the whole horizon. -/
def umAll : UnavailMap := [("P", [UEntry.closedRange 0 30])]

/-- The `math_tasks` table with the single physician P unavailable
everywhere and the mandatory task ER_1 (scenario S5). -/
def mtS5 : List (String × List (Int × List MathTask)) :=
  match mathTasksAll ["P"] umAll (determinePeriods calS2) [er1] with
  | Except.ok a => a
  | Except.error _ => []

/-- Physician Q unavailable on day 5 only. -/
def umQ : UnavailMap := [("Q", [UEntry.single 5])]

/-- The `math_tasks` table on the S2 calendar with physicians P and Q and Q
unavailable on day 5. -/
def mtS2Q : List (String × List (Int × List MathTask)) :=
  match mathTasksAll ["P", "Q"] umQ (determinePeriods calS2) [ctuA, ctuACall] with
  | Except.ok a => a
  | Except.error _ => []

/-- A valuation assigning P the call interval of the S2 calendar. -/
def vS2Q : YKey → Bool := fun k => decide (k = ("CTU_A_CALL", 5, 7, "P"))

/-- The schedule entry that `vS2Q` produces. -/
def eS2Q : SEntry :=
  { physician := "P", taskName := "CTU_A_CALL", days := [5, 6, 7],
    startDate := 5, endDate := 7, score := 0 }

/-- The all-ones valuation. -/
def vOnes : YKey → Bool := fun _ => true

/-! Theorems. -/

/-- C3: on the horizon 2022-12-30 (day 4) through 2023-01-03 (day 8) with
2023-01-02 (day 7) the only holiday, the segmentation holds the call run
Saturday 2022-12-31 (5), Sunday 2023-01-01 (6), Monday 2023-01-02 (7) as a
single CALL period of length 3, not split, stored under the week key of the
Saturday's week (Monday 2022-12-26 = day 0): the run is flushed and stored
in the Saturday's week, the carried list object grows across the week
boundary, and the second-week flush of the same run is dropped by
deduplication. -/
theorem segmentation_cross_week_carry_S2 :
    determinePeriods calS2 =
      [(0, [(PType.MAIN, [4]), (PType.CALL, [5, 6, 7])]),
       (7, [(PType.MAIN, [8])])] ∧
    (5 : Int) - weekday 5 = 0 := by
  constructor
  · rfl
  · rfl

/-- C1 (counterexample): on a week whose seven days are all call days, the
7-day run is split at its midpoint into periods of 3 and 4 days, so the
segmenter emits a CALL period with more than 3 days, contradicting the
claimed bound. -/
theorem call_period_of_four_days_emitted :
    determinePeriods calFullWeek =
      [(0, [(PType.CALL, [0, 1, 2]), (PType.CALL, [3, 4, 5, 6])])] ∧
    ¬ ([3, 4, 5, 6] : List Int).length ≤ 3 := by
  constructor
  · rfl
  · decide

/-- C2 (counterexample): on the three-week horizon with the two-week task
CTU_A and its linked call task, the `math_tasks` table holds a third week of
intervals (main start 14, call start 19), yet every constraint emitted by
the bundling loop mentions only variables with start date before 14: the
trailing partial bundle receives no bundle, quota, veto or linkage
constraint at all. -/
theorem trailing_partial_bundle_unconstrained :
    (flatMtOf mtThreeWeeks "CTU_A").map MathTask.startDate = [0, 7, 14] ∧
    (flatMtOf mtThreeWeeks "CTU_A_CALL").map MathTask.startDate = [5, 12, 19] ∧
    consThreeWeeks.all
      (fun c => c.keys.all (fun k => decide (k.2.1 < (14 : Int)))) = true ∧
    Constr.leSum ("CTU_A", 14, 18, "P") [("CTU_A_CALL", 19, 20, "P")] ∉
      consThreeWeeks := by
  refine ⟨rfl, rfl, rfl, ?_⟩
  decide

/-- C4 (counterexample): on the carry calendar the two call tasks CALL_X and
CALL_Y each materialize the overlapping intervals (5, 8) and (7, 8); the
two-pointer sweep emits no mutual-exclusion constraint for the overlapping
pair of (7, 8) intervals, a valuation assigning physician P both of them
satisfies every constraint of the model, and the extracted schedule then
gives P two assignments of distinct tasks on the same days 7 and 8. -/
theorem mutual_exclusion_missing_overlap :
    (flatMtOf mtCarry "CALL_X").map (fun mt => (mt.startDate, mt.endDate)) =
      [(5, 8), (7, 8)] ∧
    (flatMtOf mtCarry "CALL_Y").map (fun mt => (mt.startDate, mt.endDate)) =
      [(5, 8), (7, 8)] ∧
    max (7 : Int) 7 ≤ min (8 : Int) 8 ∧
    Constr.pairLe ("CALL_X", 7, 8, "P") ("CALL_Y", 7, 8, "P") ∉ consCarry ∧
    Constr.pairLe ("CALL_Y", 7, 8, "P") ("CALL_X", 7, 8, "P") ∉ consCarry ∧
    satAll vCarry consCarry = true ∧
    (∃ e1 ∈ mathSetSolution mtCarry vCarry,
      ∃ e2 ∈ mathSetSolution mtCarry vCarry,
        e1.physician = e2.physician ∧ e1.taskName ≠ e2.taskName ∧
        ∃ d ∈ e1.days, d ∈ e2.days) := by
  refine ⟨rfl, rfl, by decide, by decide, by decide, rfl, ?_⟩
  decide

/-- C8 (counterexample): adding Anna Bell, Alma Burg and Alan Black in this
order assigns initials AB, AlB and AlB — the fallback initials are not
checked for uniqueness, so the third physician's initials collide with the
second's. -/
theorem fallback_initials_collide :
    (addPhysicians [] [] [pAnna, pAlma, pAlan]).map
      (fun l => l.map Physician.initials) = Except.ok ["AB", "AlB", "AlB"] ∧
    ¬ (["AB", "AlB", "AlB"] : List String).Nodup := by
  constructor
  · rfl
  · decide

/-- C9 (code bug, evaluated at the failing entry): saving the concrete entry
`eCTU` and loading it back parses `start_date` and `end_date` and resolves
the task name, but leaves the `days` list as the serialized date strings, so
the loaded entry is not domain-equal to the original (whose days are
dates). -/
theorem loaded_schedule_days_remain_strings :
    (loadEntry [ctuA, ctuACall] (saveEntry eCTU)).days = [isoOfDay 5, isoOfDay 6] ∧
    eCTU.days = [5, 6] ∧
    (loadEntry [ctuA, ctuACall] (saveEntry eCTU)).task = some ctuA ∧
    (loadEntry [ctuA, ctuACall] (saveEntry eCTU)).startDate = eCTU.startDate ∧
    (loadEntry [ctuA, ctuACall] (saveEntry eCTU)).endDate = eCTU.endDate ∧
    (loadEntry [ctuA, ctuACall] (saveEntry eCTU)).score = eCTU.score := by
  refine ⟨rfl, rfl, ?_, ?_, ?_, rfl⟩ <;> decide

/-- C10: `is_unavailable` returns `False` for a name with no entry in the
unavailability map (rather than failing), and returns `True` exactly when
some recorded entry — a single date equal to the day, or a closed range
containing it — contains the queried day. -/
theorem is_unavailable_absent_name_and_membership (m : UnavailMap)
    (name : String) (d : Int) :
    (m.lookup name = none → isUnavailable m name d = false) ∧
    (isUnavailable m name d = true ↔
      ∃ es, m.lookup name = some es ∧ ∃ e ∈ es, e.containsDay d = true) := by
  cases h : m.lookup name with
  | none => simp [isUnavailable, h]
  | some es => simp [isUnavailable, h, List.any_eq_true]

/-- Closed instance of the `is_unavailable` characterization: an
unregistered name is available, and a range entry containing the day makes
its owner unavailable. -/
theorem is_unavailable_absent_name_and_membership_witness :
    isUnavailable [("Anna Bell", [UEntry.closedRange 2 5])] "Cora Dahl" 3 = false ∧
    isUnavailable [("Anna Bell", [UEntry.closedRange 2 5])] "Anna Bell" 3 = true := by
  constructor
  · exact (is_unavailable_absent_name_and_membership
      [("Anna Bell", [UEntry.closedRange 2 5])] "Cora Dahl" 3).1 (by decide)
  · exact (is_unavailable_absent_name_and_membership
      [("Anna Bell", [UEntry.closedRange 2 5])] "Anna Bell" 3).2.mpr
      ⟨[UEntry.closedRange 2 5], by decide, UEntry.closedRange 2 5, by decide, by decide⟩

/-- Helper: in a list sorted by ascending start date, every member whose
start date is at most the cutoff lies in the `takeWhile` prefix for that
cutoff (the loop's `break` loses nothing). -/
theorem mem_takeWhile_start_le (fpd : Int) :
    ∀ l : List MathTask,
      List.Sorted (fun a b : MathTask => a.startDate ≤ b.startDate) l →
      ∀ c ∈ l, c.startDate ≤ fpd →
        c ∈ l.takeWhile (fun x => decide (x.startDate ≤ fpd)) := by
  intro l
  induction l with
  | nil => intro _ c hc; exact absurd hc (List.not_mem_nil c)
  | cons x t ih =>
    intro hs c hc hle
    rcases List.mem_cons.mp hc with hcx | hct
    · subst hcx
      rw [List.takeWhile_cons, if_pos (by simpa using hle)]
      exact List.mem_cons_self _ _
    · have hxc : x.startDate ≤ c.startDate :=
        (List.sorted_cons.mp hs).1 c hct
      rw [List.takeWhile_cons, if_pos (by simpa using le_trans hxc hle)]
      exact List.mem_cons_of_mem _
        (ih (List.sorted_cons.mp hs).2 c hct hle)

/-- C6: for a bundle whose main intervals begin with `m1` and whose linked
call intervals are in ascending start-date order (as the builder produces
them), every call interval starting no later than `m1`'s end date gets the
constraint `y = 0` for every physician, and consequently no valuation
satisfying the emitted constraints assigns such a call interval. -/
theorem early_call_veto_zeroes_leading_calls (m1 : MathTask)
    (rest C : List MathTask) (phys : List String) (c : MathTask) (p : String)
    (hsort : List.Sorted (fun a b : MathTask => a.startDate ≤ b.startDate) C)
    (hc : c ∈ C) (hle : c.startDate ≤ m1.endDate) (hp : p ∈ phys) :
    Constr.eqZero (c.yKey p) ∈ linkMainAndCallMathTasks (m1 :: rest) C phys ∧
    ∀ v : YKey → Bool,
      satAll v (linkMainAndCallMathTasks (m1 :: rest) C phys) = true →
      v (c.yKey p) = false := by
  have hmem : Constr.eqZero (c.yKey p) ∈
      linkMainAndCallMathTasks (m1 :: rest) C phys := by
    have htw := mem_takeWhile_start_le m1.endDate C hsort c hc hle
    simp only [linkMainAndCallMathTasks, List.mem_append, List.mem_flatMap]
    exact Or.inl (Or.inl ⟨c, htw, List.mem_map.mpr ⟨p, hp, rfl⟩⟩)
  refine ⟨hmem, fun v hv => ?_⟩
  have := (List.all_eq_true.mp hv) _ hmem
  simpa [Constr.sat] using this

/-- Closed instance of the early-call veto: a one-day call on Thursday
(day 3) before the Friday end (day 4) of the first main interval is zeroed. -/
theorem early_call_veto_zeroes_leading_calls_witness :
    Constr.eqZero (mtCallW1.yKey "P") ∈
      linkMainAndCallMathTasks [mtMainW1] [mtCallW1] ["P"] :=
  (early_call_veto_zeroes_leading_calls mtMainW1 [] [mtCallW1] ["P"] mtCallW1 "P"
    (by decide) (by decide) (by decide) (by decide)).1

/-- C7: when the solver reports any status other than OPTIMAL or FEASIBLE,
`generate_schedule` leaves the prior schedule untouched; and when some
mandatory task has a `MathTask` with an empty candidate physician set, the
mandatory coverage constraints contain an empty sum bounded below by one, so
no valuation satisfies them (the solve is infeasible). -/
theorem infeasible_solve_keeps_prior_schedule :
    (∀ (prior : List SEntry)
        (mathTasks : List (String × List (Int × List MathTask)))
        (status : CpStatus) (v : YKey → Bool),
      status ≠ CpStatus.OPTIMAL → status ≠ CpStatus.FEASIBLE →
      generateScheduleUpdate prior mathTasks status v = prior) ∧
    (∀ (tasks : List Task)
        (mathTasks : List (String × List (Int × List MathTask)))
        (task : Task) (wk : Int) (mts : List MathTask) (mt : MathTask),
      task ∈ tasks → task.mandatory = true →
      (wk, mts) ∈ mtOf mathTasks task.name → mt ∈ mts →
      mt.availablePhysicians = [] →
      ∀ v : YKey → Bool,
        satAll v (mandatoryTaskConstraints tasks mathTasks) = false) := by
  constructor
  · intro prior mathTasks status v h1 h2
    simp [generateScheduleUpdate, h1, h2]
  · intro tasks mathTasks task wk mts mt htask hmand hwk hmt hempty v
    have hmem : Constr.atLeastOne [] ∈ mandatoryTaskConstraints tasks mathTasks := by
      simp only [mandatoryTaskConstraints, List.mem_flatMap]
      refine ⟨task, htask, ?_⟩
      rw [if_pos hmand]
      simp only [List.mem_flatMap]
      refine ⟨(wk, mts), hwk, List.mem_map.mpr ⟨mt, hmt, ?_⟩⟩
      rw [hempty]
      rfl
    by_contra hne
    have hall : satAll v (mandatoryTaskConstraints tasks mathTasks) = true := by
      cases h : satAll v (mandatoryTaskConstraints tasks mathTasks)
      · exact absurd h hne
      · rfl
    have := (List.all_eq_true.mp hall) _ hmem
    simp [Constr.sat, sumVals] at this

/-- Closed instance of the status handling and of the infeasible mandatory
constraint: an INFEASIBLE status keeps the prior (empty) schedule, and with
the lone physician unavailable everywhere the S5 mandatory constraints are
unsatisfiable. -/
theorem infeasible_solve_keeps_prior_schedule_witness :
    generateScheduleUpdate [] mtCarry CpStatus.INFEASIBLE vCarry = [] ∧
    satAll vOnes (mandatoryTaskConstraints [er1] mtS5) = false := by
  constructor
  · exact infeasible_solve_keeps_prior_schedule.1 [] mtCarry
      CpStatus.INFEASIBLE vCarry (by decide) (by decide)
  · exact infeasible_solve_keeps_prior_schedule.2 [er1] mtS5 er1 0
      ((mtOf mtS5 "ER_1").headD (0, [])).2
      ((((mtOf mtS5 "ER_1").headD (0, [])).2).headD mtMainW1)
      (by decide) (by decide) (by decide) (by decide) (by decide) vOnes

/-- Helper: every `MathTask` built for one week carries exactly the
candidate physicians computed from its own day list. -/
theorem buildWeekMathTasks_avail (pn : List String) (um : UnavailMap)
    (task : Task) (ws : Int) (mains calls : List (List Int))
    (mts : List MathTask)
    (h : buildWeekMathTasks pn um task ws mains calls = Except.ok mts) :
    ∀ mt ∈ mts, mt.availablePhysicians = getAvailablePhysicians pn um mt.days := by
  intro mt hmt
  unfold buildWeekMathTasks at h
  cases hdp : task.daysParameter <;> rw [hdp] at h
  · exact absurd h (by simp)
  all_goals
    cases htt : task.ttype <;> rw [htt] at h <;>
      · have hmts := Except.ok.inj h
        subst hmts
        obtain ⟨ds, _, rfl⟩ := List.mem_map.mp hmt
        rfl

/-- Helper: the per-task, per-week table rows built by the materializer all
carry the candidate physicians computed from their own day lists. -/
theorem mathTasksForTask_avail (pn : List String) (um : UnavailMap)
    (task : Task) :
    ∀ (periods : List (Int × List (PType × List Int)))
      (tws : List (Int × List MathTask)),
      mathTasksForTask pn um task periods = Except.ok tws →
      ∀ wkm ∈ tws, ∀ mt ∈ wkm.2,
        mt.availablePhysicians = getAvailablePhysicians pn um mt.days := by
  intro periods
  induction periods with
  | nil =>
    intro tws h wkm hwkm
    have := Except.ok.inj h
    subst this
    exact absurd hwkm (List.not_mem_nil wkm)
  | cons wp rest ih =>
    intro tws h wkm hwkm mt hmt
    unfold mathTasksForTask at h
    cases h1 : buildWeekMathTasks pn um task wp.1
        (periodsDaysOf wp.2 PType.MAIN) (periodsDaysOf wp.2 PType.CALL) with
    | error e => rw [h1] at h; exact absurd h (by simp)
    | ok mts1 =>
      rw [h1] at h
      cases h2 : mathTasksForTask pn um task rest with
      | error e => rw [h2] at h; exact absurd h (by simp)
      | ok more =>
        rw [h2] at h
        have := Except.ok.inj h
        subst this
        rcases List.mem_cons.mp hwkm with hhd | htl
        · subst hhd
          exact buildWeekMathTasks_avail pn um task wp.1 _ _ mts1 h1 mt hmt
        · exact ih more h2 wkm htl mt hmt

/-- Helper: every `MathTask` in the full table built by
`_math_create_variables` carries the candidate physicians computed from its
own day list. -/
theorem mathTasksAll_avail (pn : List String) (um : UnavailMap)
    (periods : List (Int × List (PType × List Int))) :
    ∀ (tasks : List Task)
      (mtw : List (String × List (Int × List MathTask))),
      mathTasksAll pn um periods tasks = Except.ok mtw →
      ∀ tw ∈ mtw, ∀ wkm ∈ tw.2, ∀ mt ∈ wkm.2,
        mt.availablePhysicians = getAvailablePhysicians pn um mt.days := by
  intro tasks
  induction tasks with
  | nil =>
    intro mtw h tw htw
    have := Except.ok.inj h
    subst this
    exact absurd htw (List.not_mem_nil tw)
  | cons t ts ih =>
    intro mtw h tw htw wkm hwkm mt hmt
    unfold mathTasksAll at h
    cases h1 : mathTasksForTask pn um t periods with
    | error e => rw [h1] at h; exact absurd h (by simp)
    | ok tws =>
      rw [h1] at h
      cases h2 : mathTasksAll pn um periods ts with
      | error e => rw [h2] at h; exact absurd h (by simp)
      | ok more =>
        rw [h2] at h
        have := Except.ok.inj h
        subst this
        rcases List.mem_cons.mp htw with hhd | htl
        · subst hhd
          exact mathTasksForTask_avail pn um t periods tws h1 wkm hwkm mt hmt
        · exact ih more h2 tw htl wkm hwkm mt hmt

/-- C5: (a) for every `MathTask` of the table and every physician of the
universe outside its candidate set, the availability family contains the
constraint `y = 0`; and (b) every entry of the schedule extracted by
`_math_set_solution` from a table built by `_math_create_variables` names a
physician who is unavailable on none of the entry's days. -/
theorem availability_zeroing_and_extracted_schedule_available :
    (∀ (allPhys : List String)
        (mtw : List (String × List (Int × List MathTask)))
        (tw : String × List (Int × List MathTask))
        (wkm : Int × List MathTask) (mt : MathTask) (p : String),
      tw ∈ mtw → wkm ∈ tw.2 → mt ∈ wkm.2 →
      p ∈ allPhys → p ∉ mt.availablePhysicians →
      Constr.eqZero (mt.yKey p) ∈ physicianAvailabilityConstraints allPhys mtw) ∧
    (∀ (pn : List String) (um : UnavailMap)
        (periods : List (Int × List (PType × List Int))) (tasks : List Task)
        (mtw : List (String × List (Int × List MathTask)))
        (v : YKey → Bool) (e : SEntry),
      mathTasksAll pn um periods tasks = Except.ok mtw →
      e ∈ mathSetSolution mtw v →
      ∀ d ∈ e.days, isUnavailable um e.physician d = false) := by
  constructor
  · intro allPhys mtw tw wkm mt p htw hwkm hmt hp hnot
    simp only [physicianAvailabilityConstraints, List.mem_flatMap]
    refine ⟨tw, htw, wkm, hwkm, mt, hmt, List.mem_map.mpr ⟨p, ?_, rfl⟩⟩
    rw [List.mem_filter]
    exact ⟨hp, by simpa using hnot⟩
  · intro pn um periods tasks mtw v e hok he d hd
    simp only [mathSetSolution, List.mem_flatMap] at he
    obtain ⟨tw, htw, wkm, hwkm, mt, hmt, he⟩ := he
    obtain ⟨p, hp, rfl⟩ := List.mem_map.mp he
    have hpav : p ∈ mt.availablePhysicians := (List.mem_filter.mp hp).1
    have havail := mathTasksAll_avail pn um periods tasks mtw hok
      tw htw wkm hwkm mt hmt
    rw [havail] at hpav
    have hall := (List.mem_filter.mp hpav).2
    have := (List.all_eq_true.mp hall) d (by simpa using hd)
    simpa using this

/-- Closed instance of the availability properties: on the S2 table with Q
unavailable on day 5, the model zeroes Q's variable for the call interval,
and the entry extracted for P has no unavailable day (day 6 checked). -/
theorem availability_zeroing_witness :
    Constr.eqZero (("CTU_A_CALL", 5, 7, "Q") : YKey) ∈
      physicianAvailabilityConstraints ["P", "Q"] mtS2Q ∧
    isUnavailable umQ "P" 6 = false := by
  constructor
  · exact availability_zeroing_and_extracted_schedule_available.1
      ["P", "Q"] mtS2Q
      ("CTU_A_CALL", mtOf mtS2Q "CTU_A_CALL")
      ((mtOf mtS2Q "CTU_A_CALL").headD (0, []))
      ((((mtOf mtS2Q "CTU_A_CALL").headD (0, [])).2).headD mtMainW1) "Q"
      (by decide) (by decide) (by decide) (by decide) (by decide)
  · exact availability_zeroing_and_extracted_schedule_available.2
      ["P", "Q"] umQ (determinePeriods calS2) [ctuA, ctuACall] mtS2Q vS2Q eS2Q
      (by rfl) (by decide) 6 (by decide)

/-- Helper: in a chain of disjoint intervals in ascending order whose
members are well-formed (start at most end), the head ends strictly before
every later member starts. -/
theorem chain_head_end_lt_start :
    ∀ (b : MathTask) (bs : List MathTask),
      List.Chain' (fun x y : MathTask => x.endDate < y.startDate) (b :: bs) →
      (∀ x ∈ bs, x.startDate ≤ x.endDate) →
      ∀ b0 ∈ bs, b.endDate < b0.startDate := by
  intro b bs
  induction bs generalizing b with
  | nil => intro _ _ b0 hb0; exact absurd hb0 (List.not_mem_nil b0)
  | cons b1 bs1 ih =>
    intro hch hwf b0 hb0
    have hhd : b.endDate < b1.startDate := (List.chain'_cons.mp hch).1
    rcases List.mem_cons.mp hb0 with h1 | h1
    · subst h1; exact hhd
    · have hb1 : b1.startDate ≤ b1.endDate := hwf b1 (List.mem_cons_self _ _)
      have := ih b1 (List.chain'_cons.mp hch).2
        (fun x hx => hwf x (List.mem_cons_of_mem _ hx)) b0 h1
      exact lt_of_le_of_lt (le_trans (le_of_lt hhd) hb1) this

/-- Helper: the fuelled two-pointer sweep visits every overlapping pair when
both input lists are chains of disjoint well-formed intervals in ascending
order and the fuel covers both lengths. -/
theorem sweepAux_complete (phys : List String) :
    ∀ (fuel : Nat) (A B : List MathTask),
      A.length + B.length ≤ fuel →
      List.Chain' (fun x y : MathTask => x.endDate < y.startDate) A →
      List.Chain' (fun x y : MathTask => x.endDate < y.startDate) B →
      (∀ x ∈ A, x.startDate ≤ x.endDate) →
      (∀ x ∈ B, x.startDate ≤ x.endDate) →
      ∀ a ∈ A, ∀ b ∈ B, ∀ p ∈ phys,
        max a.startDate b.startDate ≤ min a.endDate b.endDate →
        Constr.pairLe (a.yKey p) (b.yKey p) ∈ sweepAux phys fuel A B := by
  intro fuel
  induction fuel with
  | zero =>
    intro A B hlen _ _ _ _ a ha
    have : A = [] := List.length_eq_zero.mp (Nat.le_zero.mp
      (le_trans (Nat.le_add_right _ _) hlen))
    subst this
    exact absurd ha (List.not_mem_nil a)
  | succ fuel ih =>
    intro A B hlen hchA hchB hwfA hwfB a ha b hb p hp hov
    cases A with
    | nil => exact absurd ha (List.not_mem_nil a)
    | cons a1 as =>
      cases B with
      | nil => exact absurd hb (List.not_mem_nil b)
      | cons b1 bs =>
        simp only [sweepAux, List.mem_append]
        rcases List.mem_cons.mp ha with rfl | has
        · rcases List.mem_cons.mp hb with rfl | hbs
          · -- the two heads: emitted immediately
            left
            rw [if_pos hov]
            exact List.mem_map.mpr ⟨p, hp, rfl⟩
          · -- head of A against a deeper B element
            right
            by_cases hcmp : a.endDate < b1.endDate
            · -- the sweep would drop a before reaching b: impossible overlap
              exfalso
              have h1 : b.startDate ≤ a.endDate :=
                le_trans (le_trans (le_max_right _ _) hov) (min_le_left _ _)
              have h2 : b1.endDate < b.startDate := by
                have hb1b : b1.endDate < b.startDate :=
                  chain_head_end_lt_start b1 bs hchB
                    (fun x hx => hwfB x (List.mem_cons_of_mem _ hx)) b hbs
                exact hb1b
              exact absurd (lt_of_le_of_lt h1 (lt_trans hcmp h2))
                (lt_irrefl b.startDate)
            · rw [if_neg hcmp]
              exact ih (a :: as) bs
                (by simp only [List.length_cons] at hlen ⊢; omega)
                hchA ((List.chain'_cons'.mp hchB).2)
                hwfA (fun x hx => hwfB x (List.mem_cons_of_mem _ hx))
                a (List.mem_cons_self _ _) b hbs p hp hov
        · rcases List.mem_cons.mp hb with rfl | hbs
          · -- deeper A element against head of B
            right
            by_cases hcmp : a1.endDate < b.endDate
            · rw [if_pos hcmp]
              exact ih as (b :: bs)
                (by simp only [List.length_cons] at hlen ⊢; omega)
                ((List.chain'_cons'.mp hchA).2) hchB
                (fun x hx => hwfA x (List.mem_cons_of_mem _ hx)) hwfB
                a has b (List.mem_cons_self _ _) p hp hov
            · -- the sweep would drop b before reaching a: impossible overlap
              exfalso
              have h1 : a.startDate ≤ b.endDate :=
                le_trans (le_trans (le_max_left _ _) hov) (min_le_right _ _)
              have h2 : a1.endDate < a.startDate :=
                chain_head_end_lt_start a1 as hchA
                  (fun x hx => hwfA x (List.mem_cons_of_mem _ hx)) a has
              have : b.endDate < a.startDate :=
                lt_of_le_of_lt (not_lt.mp hcmp) h2
              exact absurd (lt_of_le_of_lt h1 this) (lt_irrefl a.startDate)
          · -- both deeper: either advance reaches them
            right
            by_cases hcmp : a1.endDate < b1.endDate
            · rw [if_pos hcmp]
              exact ih as (b1 :: bs)
                (by simp only [List.length_cons] at hlen ⊢; omega)
                ((List.chain'_cons'.mp hchA).2) hchB
                (fun x hx => hwfA x (List.mem_cons_of_mem _ hx)) hwfB
                a has b (List.mem_cons_of_mem _ hbs) p hp hov
            · rw [if_neg hcmp]
              exact ih (a1 :: as) bs
                (by simp only [List.length_cons] at hlen ⊢; omega)
                hchA ((List.chain'_cons'.mp hchB).2)
                hwfA (fun x hx => hwfB x (List.mem_cons_of_mem _ hx))
                a (List.mem_cons_of_mem _ has) b hbs p hp hov

/-- C4 (amended): when each of the two tasks' `MathTask` sequences is a
strictly ordered chain of disjoint well-formed intervals — the materializer's
documented ordering invariant, which the carry pathology violates — the
two-pointer sweep emits the mutual-exclusion constraint for every
overlapping pair and every physician. -/
theorem sweep_covers_all_overlaps_of_disjoint_sorted (phys : List String)
    (A B : List MathTask)
    (hchA : List.Chain' (fun x y : MathTask => x.endDate < y.startDate) A)
    (hchB : List.Chain' (fun x y : MathTask => x.endDate < y.startDate) B)
    (hwfA : ∀ x ∈ A, x.startDate ≤ x.endDate)
    (hwfB : ∀ x ∈ B, x.startDate ≤ x.endDate) :
    ∀ a ∈ A, ∀ b ∈ B, ∀ p ∈ phys,
      max a.startDate b.startDate ≤ min a.endDate b.endDate →
      Constr.pairLe (a.yKey p) (b.yKey p) ∈
        createMutuallyExclusiveMathTasksConstraints phys A B :=
  sweepAux_complete phys (A.length + B.length) A B le_rfl hchA hchB hwfA hwfB

/-- Closed instance of the sweep completeness: the Monday-Friday main
interval and the Thursday call interval overlap and their pair constraint is
emitted. -/
theorem sweep_covers_all_overlaps_witness :
    Constr.pairLe (mtMainW1.yKey "P") (mtCallW1.yKey "P") ∈
      createMutuallyExclusiveMathTasksConstraints ["P"] [mtMainW1] [mtCallW1] :=
  sweep_covers_all_overlaps_of_disjoint_sorted ["P"] [mtMainW1] [mtCallW1]
    (List.chain'_singleton _) (List.chain'_singleton _) (by decide) (by decide)
    mtMainW1 (by decide) mtCallW1 (by decide) "P" (by decide) (by decide)

/-- Helper: when fewer weeks remain than the counter requires, the bundling
loop emits nothing (the trailing partial bundle is dropped). -/
theorem bundleLoop_eq_nil_of_short (k : Nat) (linked : Bool)
    (phys : List String) :
    ∀ (weeks : List (List MathTask × List MathTask)) (left : Nat)
      (bm bc : List MathTask),
      weeks.length < left → bundleLoop k linked phys left bm bc weeks = [] := by
  intro weeks
  induction weeks with
  | nil => intro left bm bc _; rfl
  | cons w ws ih =>
    intro left bm bc hlt
    have h1 : ¬ (left - 1 = 0) := by
      simp only [List.length_cons] at hlt
      omega
    simp only [bundleLoop, if_neg h1]
    exact ih (left - 1) _ _ (by simp only [List.length_cons] at hlt; omega)

/-- Helper: the bundling loop on a block of exactly `left` weeks followed by
a remainder first finishes the block, then restarts fresh on the
remainder. -/
theorem bundleLoop_chunk (k : Nat) (linked : Bool) (phys : List String) :
    ∀ (ws rest : List (List MathTask × List MathTask)) (left : Nat)
      (bm bc : List MathTask),
      ws.length = left → 1 ≤ left →
      bundleLoop k linked phys left bm bc (ws ++ rest) =
        bundleLoop k linked phys left bm bc ws ++
          bundleLoop k linked phys k [] [] rest := by
  intro ws
  induction ws with
  | nil =>
    intro rest left bm bc hlen hpos
    simp only [List.length_nil] at hlen
    omega
  | cons w ws1 ih =>
    intro rest left bm bc hlen hpos
    simp only [List.length_cons] at hlen
    by_cases hz : left - 1 = 0
    · have hws1 : ws1 = [] := by
        have : ws1.length = 0 := by omega
        exact List.length_eq_zero.mp this
      subst hws1
      simp only [List.cons_append, List.nil_append, bundleLoop, if_pos hz,
        List.append_assoc]
      rfl
    · simp only [List.cons_append, bundleLoop, if_neg hz]
      exact ih rest (left - 1) _ _ (by omega) (by omega)

/-- Helper: the bundling loop, started fresh, ignores every week past the
last full bundle of `k` weeks. -/
theorem bundleLoop_take_full (k : Nat) (hk : 1 ≤ k) (linked : Bool)
    (phys : List String) :
    ∀ (n : Nat) (weeks : List (List MathTask × List MathTask)),
      weeks.length = n →
      bundleLoop k linked phys k [] [] weeks =
        bundleLoop k linked phys k [] []
          (weeks.take (k * (weeks.length / k))) := by
  intro n
  induction n using Nat.strong_induction_on with
  | _ n ih =>
    intro weeks hlen
    by_cases hsmall : weeks.length < k
    · rw [Nat.div_eq_of_lt hsmall, Nat.mul_zero, List.take_zero]
      rw [bundleLoop_eq_nil_of_short k linked phys weeks k [] [] hsmall]
      rfl
    · have hk_le : k ≤ weeks.length := not_lt.mp hsmall
      have hsplit := List.take_append_drop k weeks
      have htklen : (weeks.take k).length = k := by
        rw [List.length_take]
        exact Nat.min_eq_left hk_le
      have hdrlen : (weeks.drop k).length = weeks.length - k :=
        List.length_drop k weeks
      have hdiv : weeks.length / k = (weeks.drop k).length / k + 1 := by
        rw [hdrlen]
        rw [Nat.div_eq_sub_div (by omega) hk_le]
      have hlhs := bundleLoop_chunk k linked phys (weeks.take k)
        (weeks.drop k) k [] [] htklen hk
      have hih := ih (weeks.drop k).length (by rw [hdrlen]; omega)
        (weeks.drop k) rfl
      have harith : k * (weeks.length / k) =
          k + k * ((weeks.drop k).length / k) := by
        rw [hdiv]; ring
      have hrhs_take : weeks.take (k * (weeks.length / k)) =
          weeks.take k ++ (weeks.drop k).take (k * ((weeks.drop k).length / k)) := by
        rw [harith, List.take_add]
      have hrhs := bundleLoop_chunk k linked phys (weeks.take k)
        ((weeks.drop k).take (k * ((weeks.drop k).length / k))) k [] []
        htklen hk
      calc bundleLoop k linked phys k [] [] weeks
          = bundleLoop k linked phys k [] [] (weeks.take k ++ weeks.drop k) := by
            rw [hsplit]
        _ = bundleLoop k linked phys k [] [] (weeks.take k) ++
              bundleLoop k linked phys k [] [] (weeks.drop k) := hlhs
        _ = bundleLoop k linked phys k [] [] (weeks.take k) ++
              bundleLoop k linked phys k [] []
                ((weeks.drop k).take (k * ((weeks.drop k).length / k))) := by
            rw [hih]
        _ = bundleLoop k linked phys k [] []
              (weeks.take k ++
                (weeks.drop k).take (k * ((weeks.drop k).length / k))) := hrhs.symm
        _ = bundleLoop k linked phys k [] []
              (weeks.take (k * (weeks.length / k))) := by rw [hrhs_take]

/-- C2 (amended): for a MAIN task with `number_of_weeks = k >= 1`, the
bundling loop emits constraints only for the `⌊n / k⌋` full bundles of its
`n` weeks: its output on all weeks equals its output on the first
`k * ⌊n / k⌋` weeks, so the trailing partial bundle contributes no bundle,
quota, veto or linkage constraint. -/
theorem bundleLoop_emits_only_full_bundles (k : Nat) (hk : 1 ≤ k)
    (linked : Bool) (phys : List String)
    (weeks : List (List MathTask × List MathTask)) :
    bundleLoop k linked phys k [] [] weeks =
      bundleLoop k linked phys k [] []
        (weeks.take (k * (weeks.length / k))) :=
  bundleLoop_take_full k hk linked phys weeks.length weeks rfl

/-- Closed instance of the full-bundle property on the three-week CTU_A
instance with bundle size 2. -/
theorem bundleLoop_emits_only_full_bundles_witness :
    bundleLoop 2 true ["P"] 2 [] [] weeksCtuA =
      bundleLoop 2 true ["P"] 2 [] []
        (weeksCtuA.take (2 * (weeksCtuA.length / 2))) :=
  bundleLoop_emits_only_full_bundles 2 (by decide) true ["P"] weeksCtuA

/-- C1 (amended): `_add_call_periods` on a run of `n >= 4` distinct days
(with nothing previously deduplicated) stores exactly two adjacent CALL
periods under one week key, the two halves around the midpoint `n / 2`, of
sizes `⌊n / 2⌋` and `⌈n / 2⌉` — so an emitted CALL period may hold up to
`⌈n / 2⌉` days, which exceeds 3 as soon as the run has 7 or more days. -/
theorem addCallPeriods_midpoint_split (cp : List Int) (ws : Int)
    (h4 : 4 ≤ cp.length) (hnd : cp.Nodup) :
    ∃ k, (addCallPeriods { heap := [cp], cur := 0, periods := [], added := [] }
        ws).periods =
      [(k, [(PType.CALL, PDays.direct (cp.take (cp.length / 2))),
            (PType.CALL, PDays.direct (cp.drop (cp.length / 2)))])] ∧
    (cp.take (cp.length / 2)).length = cp.length / 2 ∧
    (cp.drop (cp.length / 2)).length = cp.length - cp.length / 2 := by
  obtain ⟨d0, tl, rfl⟩ : ∃ d0 tl, cp = d0 :: tl := by
    cases cp with
    | nil => simp at h4
    | cons a l => exact ⟨a, l, rfl⟩
  have hn : (d0 :: tl).length = tl.length + 1 := List.length_cons d0 tl
  have hmid2 : 2 ≤ (d0 :: tl).length / 2 := by
    rw [Nat.le_div_iff_mul_le (by norm_num)]
    omega
  have hmidlt : (d0 :: tl).length / 2 < (d0 :: tl).length :=
    Nat.div_lt_self (by omega) (by norm_num)
  obtain ⟨m, hm⟩ : ∃ m, (d0 :: tl).length / 2 = m + 1 :=
    ⟨(d0 :: tl).length / 2 - 1, by omega⟩
  have htake : (d0 :: tl).take ((d0 :: tl).length / 2) = d0 :: tl.take m := by
    rw [hm]; rfl
  have hdrop : (d0 :: tl).drop ((d0 :: tl).length / 2) = tl.drop m := by
    rw [hm]; rfl
  have hlen_drop : (tl.drop m).length = (d0 :: tl).length - (d0 :: tl).length / 2 := by
    rw [List.length_drop]
    omega
  obtain ⟨dm, r, hdm⟩ : ∃ dm r, tl.drop m = dm :: r := by
    cases hdt : tl.drop m with
    | nil =>
      rw [hdt] at hlen_drop
      simp only [List.length_nil] at hlen_drop
      omega
    | cons a l => exact ⟨a, l, rfl⟩
  have hdm_mem : dm ∈ tl := by
    have hmem : dm ∈ tl.drop m := by
      rw [hdm]; exact List.mem_cons_self _ _
    exact List.drop_subset m tl hmem
  have hne : (dm == d0) = false := by
    refine beq_eq_false_iff_ne.mpr (fun h => ?_)
    rw [h] at hdm_mem
    exact (List.nodup_cons.mp hnd).1 hdm_mem
  refine ⟨if weekday d0 < 5 then d0 - weekday d0 else ws, ?_, ?_, ?_⟩
  · simp only [addCallPeriods, heapGet, List.getD_cons_zero, if_pos h4,
      htake, hdrop, hdm, addSingleCallPeriod, List.contains_nil,
      Bool.false_eq_true, if_false, List.nil_append, List.contains_cons,
      hne, Bool.or_self, appendPeriod, if_pos rfl]
    simp
  · rw [List.length_take]
    omega
  · rw [List.length_drop]

/-- Closed instance of the midpoint split: a 7-day run yields halves of 3
and 4 days. -/
theorem addCallPeriods_midpoint_split_witness :
    4 ≤ ([0, 1, 2, 3, 4, 5, 6] : List Int).length ∧
    ∃ k, (addCallPeriods
        { heap := [[0, 1, 2, 3, 4, 5, 6]], cur := 0, periods := [], added := [] }
        0).periods =
      [(k, [(PType.CALL, PDays.direct (([0, 1, 2, 3, 4, 5, 6] : List Int).take
              (([0, 1, 2, 3, 4, 5, 6] : List Int).length / 2))),
            (PType.CALL, PDays.direct (([0, 1, 2, 3, 4, 5, 6] : List Int).drop
              (([0, 1, 2, 3, 4, 5, 6] : List Int).length / 2)))])] ∧
    (([0, 1, 2, 3, 4, 5, 6] : List Int).take
      (([0, 1, 2, 3, 4, 5, 6] : List Int).length / 2)).length =
        ([0, 1, 2, 3, 4, 5, 6] : List Int).length / 2 ∧
    (([0, 1, 2, 3, 4, 5, 6] : List Int).drop
      (([0, 1, 2, 3, 4, 5, 6] : List Int).length / 2)).length =
        ([0, 1, 2, 3, 4, 5, 6] : List Int).length -
          ([0, 1, 2, 3, 4, 5, 6] : List Int).length / 2 :=
  ⟨by decide, addCallPeriods_midpoint_split [0, 1, 2, 3, 4, 5, 6] 0
    (by decide) (by decide)⟩

/-- Helper: as long as the plain (first letter + first letter) initials of
the already-added physicians and of those still to be added are pairwise
distinct, the clash fallback never fires, so every physician ends up with
exactly the plain initials. -/
theorem addPhysicians_initials_eq_plain (cats : List String) :
    ∀ (ps st res : List Physician),
      (∀ q ∈ st, q.initials = plainInitials q) →
      ((st ++ ps).map plainInitials).Nodup →
      addPhysicians cats st ps = Except.ok res →
      res.map Physician.initials = (st ++ ps).map plainInitials := by
  intro ps
  induction ps with
  | nil =>
    intro st res hinv _ hok
    have := Except.ok.inj hok
    subst this
    rw [List.append_nil]
    exact List.map_congr_left hinv
  | cons p ps1 ih =>
    intro st res hinv hnd hok
    unfold addPhysicians addPhysician at hok
    by_cases hval : validatePhysician cats p = true
    · rw [if_pos hval] at hok
      have hplain_notin : plainInitials p ∉ st.map plainInitials := by
        intro hmem
        have hnd2 := hnd
        rw [List.map_append, List.map_cons] at hnd2
        exact (List.disjoint_of_nodup_append hnd2) hmem
          (List.mem_cons_self _ _)
      have hany : (st.any fun q =>
          decide (q.initials = plainInitials p)) = false := by
        rw [List.any_eq_false]
        intro q hq
        simp only [decide_eq_true_eq]
        rw [hinv q hq]
        intro heq
        exact hplain_notin (List.mem_map.mpr ⟨q, hq, heq⟩)
      have hset : setInitials st p = { p with initials := plainInitials p } := by
        simp only [setInitials, hany, Bool.false_eq_true, if_false]
      have hplain_set : plainInitials (setInitials st p) = plainInitials p := by
        rw [hset]; rfl
      have hinv' : ∀ q ∈ st ++ [setInitials st p],
          q.initials = plainInitials q := by
        intro q hq
        rcases List.mem_append.mp hq with h1 | h1
        · exact hinv q h1
        · have : q = setInitials st p := by simpa using h1
          subst this
          rw [hset]
          rfl
      have hmap_eq : ((st ++ [setInitials st p]) ++ ps1).map plainInitials =
          (st ++ p :: ps1).map plainInitials := by
        simp only [List.map_append, List.map_cons, List.map_nil,
          List.append_assoc, List.nil_append, List.singleton_append,
          hplain_set]
      have hres := ih (st ++ [setInitials st p]) res hinv'
        (by rw [hmap_eq]; exact hnd) hok
      rw [hres, hmap_eq]
    · rw [if_neg hval] at hok
      exact absurd hok (by simp)

/-- C8 (amended): a sequence of successful `add_physician` calls yields
pairwise-distinct initials provided the plain first-letter initials of the
added physicians are already pairwise distinct (so the unchecked fallback
never fires); without that proviso two clashing physicians can receive
identical fallback initials. -/
theorem initials_unique_when_plain_initials_distinct (cats : List String)
    (ps res : List Physician)
    (hnd : (ps.map plainInitials).Nodup)
    (hok : addPhysicians cats [] ps = Except.ok res) :
    (res.map Physician.initials).Nodup := by
  have := addPhysicians_initials_eq_plain cats ps [] res
    (by intro q hq; exact absurd hq (List.not_mem_nil q))
    (by simpa using hnd) hok
  rw [this]
  simpa using hnd

/-- Closed instance of initials uniqueness: Anna Bell and Cora Dahl have
distinct plain initials AB and CD, so their assigned initials are
distinct. -/
theorem initials_unique_witness :
    (resAnnaCora.map Physician.initials).Nodup :=
  initials_unique_when_plain_initials_distinct [] [pAnna, pCora] resAnnaCora
    (by decide) rfl

end DrScheduler
